import Mathlib

/-!
# AioPynamoDB core — a shallow embedding for verification

The repository ships the integration-test surface of an object-mapping
client for a hash/range-key document store (a DynamoDB-style API).  The
library package itself is not part of the source tree, so the definitions
below model the core components from the specification document
(attribute marshalling, expression compilation, schema/index merging and
the transaction orchestrator), with the integration tests pinning the
concrete messages and codes they assert.

All machine-level data is modelled over `Nat`/`Int` lists: a byte is a
`Nat` below 256, wire text is a list of ASCII codes.
-/

namespace AioPynamoDB

/-! ## Base64 codec (legacy binary encoding)

Modelled from the spec: binary attributes have "two historically
incompatible wire encodings" — the legacy encoding base64-encodes the
payload before it is placed on the wire, the canonical encoding sends the
raw bytes.  Standard base64 alphabet with `=` (ASCII 61) padding. -/

/-- ASCII code of the base64 alphabet character for a 6-bit value. -/
def b64chr (n : Nat) : Nat :=
  if n < 26 then 65 + n
  else if n < 52 then 71 + n
  else if n < 62 then n - 4
  else if n = 62 then 43
  else 47

/-- 6-bit value of a base64 alphabet character (ASCII code). -/
def b64val (c : Nat) : Nat :=
  if c = 43 then 62
  else if c = 47 then 63
  else if c < 58 then c + 4
  else if c < 91 then c - 65
  else c - 71

theorem b64val_b64chr : ∀ n < 64, b64val (b64chr n) = n := by decide

theorem b64chr_ne_pad : ∀ n < 64, b64chr n ≠ 61 := by decide

/-- Base64-encode a byte list (bytes are `Nat < 256`), with padding. -/
def b64encodeBytes : List Nat → List Nat
  | [] => []
  | [a] => [b64chr (a / 4), b64chr (a % 4 * 16), 61, 61]
  | [a, b] => [b64chr (a / 4), b64chr (a % 4 * 16 + b / 16), b64chr (b % 16 * 4), 61]
  | a :: b :: c :: rest =>
      b64chr (a / 4) :: b64chr (a % 4 * 16 + b / 16) ::
      b64chr (b % 16 * 4 + c / 64) :: b64chr (c % 64) :: b64encodeBytes rest

/-- Base64-decode a byte list produced by `b64encodeBytes`. -/
def b64decodeBytes : List Nat → List Nat
  | c1 :: c2 :: c3 :: c4 :: rest =>
      let s1 := b64val c1
      let s2 := b64val c2
      if c3 = 61 then [s1 * 4 + s2 / 16]
      else
        let s3 := b64val c3
        if c4 = 61 then [s1 * 4 + s2 / 16, s2 % 16 * 16 + s3 / 4]
        else (s1 * 4 + s2 / 16) :: (s2 % 16 * 16 + s3 / 4) ::
             (s3 % 4 * 64 + b64val c4) :: b64decodeBytes rest
  | _ => []

/-- Decoding inverts encoding on genuine byte lists. -/
theorem b64decode_b64encode :
    ∀ bs : List Nat, (∀ x ∈ bs, x < 256) → b64decodeBytes (b64encodeBytes bs) = bs := by
  intro bs
  induction bs using b64encodeBytes.induct with
  | case1 => intro _; rfl
  | case2 a =>
      intro h
      have ha : a < 256 := h a (by simp)
      simp only [b64encodeBytes, b64decodeBytes]
      rw [b64val_b64chr (a / 4) (by omega), b64val_b64chr (a % 4 * 16) (by omega)]
      simp
      omega
  | case3 a b =>
      intro h
      have ha : a < 256 := h a (by simp)
      have hb : b < 256 := h b (by simp)
      simp only [b64encodeBytes, b64decodeBytes]
      rw [if_neg (b64chr_ne_pad (b % 16 * 4) (by omega))]
      rw [b64val_b64chr (a / 4) (by omega),
          b64val_b64chr (a % 4 * 16 + b / 16) (by omega),
          b64val_b64chr (b % 16 * 4) (by omega)]
      simp
      constructor <;> omega
  | case4 a b c rest ih =>
      intro h
      have ha : a < 256 := h a (by simp)
      have hb : b < 256 := h b (by simp)
      have hc : c < 256 := h c (by simp)
      have hrest : ∀ x ∈ rest, x < 256 := by
        intro x hx; exact h x (by simp [hx])
      simp only [b64encodeBytes, b64decodeBytes]
      rw [if_neg (b64chr_ne_pad (b % 16 * 4 + c / 64) (by omega))]
      rw [if_neg (b64chr_ne_pad (c % 64) (by omega))]
      rw [b64val_b64chr (a / 4) (by omega),
          b64val_b64chr (a % 4 * 16 + b / 16) (by omega),
          b64val_b64chr (b % 16 * 4 + c / 64) (by omega),
          b64val_b64chr (c % 64) (by omega)]
      simp [ih hrest]
      refine ⟨by omega, by omega, by omega⟩

/-! ## Decimal number codec

Modelled from the spec: "the wire format encodes numbers as decimal
strings" and "Numeric attributes preserve arbitrary-precision decimal
semantics (no floating-point rounding)".  Integers are rendered as ASCII
digit strings, with ASCII 45 (`-`) for negative numbers. -/

/-- ASCII digit string of a natural number, most significant digit first. -/
def natDigits (n : Nat) : List Nat :=
  if _h : n < 10 then [48 + n] else natDigits (n / 10) ++ [48 + n % 10]
  decreasing_by exact Nat.div_lt_self (by omega) (by omega)

/-- Parse an ASCII digit string back to a natural number. -/
def decNat (ds : List Nat) : Nat :=
  ds.foldl (fun a c => a * 10 + (c - 48)) 0

theorem decNat_append_digit (xs : List Nat) (c : Nat) :
    decNat (xs ++ [c]) = decNat xs * 10 + (c - 48) := by
  simp [decNat, List.foldl_append]

theorem decNat_natDigits (n : Nat) : decNat (natDigits n) = n := by
  induction n using Nat.strong_induction_on with
  | _ n ih =>
      rw [natDigits]
      by_cases h : n < 10
      · simp [h, decNat]
      · rw [dif_neg h, decNat_append_digit,
            ih (n / 10) (Nat.div_lt_self (by omega) (by omega))]
        omega

theorem natDigits_ne_nil (n : Nat) : natDigits n ≠ [] := by
  rw [natDigits]
  by_cases h : n < 10 <;> simp [h]

theorem natDigits_head_is_digit (n : Nat) :
    ∀ d, (natDigits n).head? = some d → 48 ≤ d ∧ d ≤ 57 := by
  induction n using Nat.strong_induction_on with
  | _ n ih =>
      intro d hd
      rw [natDigits] at hd
      by_cases h : n < 10
      · rw [dif_pos h] at hd
        simp at hd
        omega
      · rw [dif_neg h, List.head?_append_of_ne_nil _ (natDigits_ne_nil _)] at hd
        exact ih (n / 10) (Nat.div_lt_self (by omega) (by omega)) d hd

/-- ASCII decimal rendering of an integer (45 is the minus sign). -/
def intToDec (i : Int) : List Nat :=
  if i < 0 then 45 :: natDigits i.natAbs else natDigits i.toNat

/-- Parse an ASCII decimal string back to an integer. -/
def decToInt (ds : List Nat) : Int :=
  if ds.head? = some 45 then -(decNat ds.tail : Int) else (decNat ds : Int)

theorem decToInt_intToDec (i : Int) : decToInt (intToDec i) = i := by
  rw [intToDec]
  by_cases h : i < 0
  · rw [if_pos h, decToInt]
    simp only [List.head?_cons, List.tail_cons, ite_true, reduceIte]
    rw [decNat_natDigits]
    omega
  · rw [if_neg h, decToInt]
    rcases hhead : (natDigits i.toNat).head? with _ | d
    · exact absurd (List.head?_eq_none_iff.mp hhead) (natDigits_ne_nil _)
    · have hdig := natDigits_head_is_digit i.toNat d hhead
      rw [if_neg (by simp; omega), decNat_natDigits]
      omega

/-! ## Attribute values, wire values and attribute descriptors

Modelled from the spec: the library's attribute classes
(`UnicodeAttribute`, `NumberAttribute`, `BinaryAttribute`,
`BooleanAttribute`, `NullAttribute`, the three set attributes,
`ListAttribute`, `MapAttribute`) are absent from the source tree; the
descriptor/value model below follows spec §3 and §4.1.  A wire value is
"a single-key object whose key names the wire type (`S`, `N`, `B`,
`BOOL`, `NULL`, `SS`, `NS`, `BS`, `L`, `M`)"; binary payloads on the
wire are distinguishable by which of the two historical encodings
produced them (the spec requires both to be decodable), which the model
records as a flag on the `B`/`BS` constructors. -/

/-- An application-level attribute value.  Bytes are `Nat < 256`. -/
inductive AttrValue where
  | str (s : String)
  | num (n : Int)
  | bin (b : List Nat)
  | boolean (b : Bool)
  | null
  | strSet (xs : List String)
  | numSet (xs : List Int)
  | binSet (xs : List (List Nat))
  | listV (xs : List AttrValue)
  | mapV (kvs : List (String × AttrValue))

/-- A tagged wire value. -/
inductive WireValue where
  | S (s : String)
  | N (digits : List Nat)
  | B (legacyEncoded : Bool) (payload : List Nat)
  | BOOL (b : Bool)
  | NULL
  | SS (xs : List String)
  | NS (xs : List (List Nat))
  | BS (legacyEncoded : Bool) (xs : List (List Nat))
  | L (xs : List WireValue)
  | M (kvs : List (String × WireValue))

/-- An attribute descriptor: the declared wire type of one field,
including the legacy-encoding flag for binary types, with nested
list/map descriptors dispatching to child descriptors. -/
inductive AttrDesc where
  | string
  | number
  | binary (legacyEncoding : Bool)
  | boolean
  | nullType
  | stringSet
  | numberSet
  | binarySet (legacyEncoding : Bool)
  | listOf (elem : AttrDesc)
  | mapOf (fields : List (String × AttrDesc))

/-- Encode one binary payload under the configured encoding. -/
def encodeBin (legacy : Bool) (b : List Nat) : List Nat :=
  if legacy then b64encodeBytes b else b

/-- Decode one binary payload according to the encoding that produced it. -/
def decodeBin (legacyEncoded : Bool) (p : List Nat) : List Nat :=
  if legacyEncoded then b64decodeBytes p else p

/-! Modelled from the spec (§4.1): `serialize(value) -> WireValue` fails
with `SerializationError` (here: `none`) if the value's shape does not
match the declared wire type; sets serialize with duplicate elimination
and an empty set serializes to the wire protocol's `NULL`; nested
map/list values dispatch recursively to child descriptors. -/

mutual

def serializeValue : AttrDesc → AttrValue → Option WireValue
  | .string, .str s => some (.S s)
  | .number, .num n => some (.N (intToDec n))
  | .binary leg, .bin b =>
      if b.all (· < 256) then some (.B leg (encodeBin leg b)) else none
  | .boolean, .boolean b => some (.BOOL b)
  | .nullType, .null => some .NULL
  | .stringSet, .strSet xs => if xs.isEmpty then some .NULL else some (.SS xs.dedup)
  | .numberSet, .numSet xs =>
      if xs.isEmpty then some .NULL else some (.NS (xs.dedup.map intToDec))
  | .binarySet leg, .binSet xs =>
      if xs.isEmpty then some .NULL
      else if xs.all (·.all (· < 256)) then
        some (.BS leg (xs.dedup.map (encodeBin leg)))
      else none
  | .listOf d, .listV xs => (serializeElems d xs).map .L
  | .mapOf fds, .mapV kvs => (serializeFields fds kvs).map .M
  | _, _ => none
termination_by d v => (sizeOf d, sizeOf v)

def serializeElems : AttrDesc → List AttrValue → Option (List WireValue)
  | _, [] => some []
  | d, x :: xs => do
      let w ← serializeValue d x
      let ws ← serializeElems d xs
      pure (w :: ws)
termination_by d xs => (sizeOf d, sizeOf xs)

def serializeFields : List (String × AttrDesc) → List (String × AttrValue) →
    Option (List (String × WireValue))
  | [], [] => some []
  | (k, d) :: fds, (k2, v) :: kvs =>
      if k = k2 then do
        let w ← serializeValue d v
        let ws ← serializeFields fds kvs
        pure ((k, w) :: ws)
      else none
  | _, _ => none
termination_by fds kvs => (sizeOf fds, sizeOf kvs)

end

/-! Modelled from the spec (§4.1): `deserialize(WireValue) -> value`
"must accept both legacy and canonical encodings for binary/binary-set
types regardless of which encoding is configured for serialization":
the binary cases below decode according to the encoding on the wire and
ignore the descriptor's configured flag. -/

mutual

def deserializeValue : AttrDesc → WireValue → Option AttrValue
  | .string, .S s => some (.str s)
  | .number, .N ds => some (.num (decToInt ds))
  | .binary _, .B enc p => some (.bin (decodeBin enc p))
  | .boolean, .BOOL b => some (.boolean b)
  | .nullType, .NULL => some .null
  | .stringSet, .SS xs => some (.strSet xs)
  | .numberSet, .NS xs => some (.numSet (xs.map decToInt))
  | .binarySet _, .BS enc ps => some (.binSet (ps.map (decodeBin enc)))
  | .listOf d, .L ws => (deserializeElems d ws).map .listV
  | .mapOf fds, .M kvs => (deserializeFields fds kvs).map .mapV
  | _, _ => none
termination_by d w => (sizeOf d, sizeOf w)

def deserializeElems : AttrDesc → List WireValue → Option (List AttrValue)
  | _, [] => some []
  | d, w :: ws => do
      let v ← deserializeValue d w
      let vs ← deserializeElems d ws
      pure (v :: vs)
termination_by d ws => (sizeOf d, sizeOf ws)

def deserializeFields : List (String × AttrDesc) → List (String × WireValue) →
    Option (List (String × AttrValue))
  | [], [] => some []
  | (k, d) :: fds, (k2, w) :: kvs =>
      if k = k2 then do
        let v ← deserializeValue d w
        let vs ← deserializeFields fds kvs
        pure ((k, v) :: vs)
      else none
  | _, _ => none
termination_by fds kvs => (sizeOf fds, sizeOf kvs)

end

/-! Validity of an application value for a descriptor: the value's shape
matches the declared wire type, binary payloads are genuine bytes, and
set values are non-empty duplicate-free collections (the store forbids
empty sets; sets are unordered with duplicate elimination, modelled as
already-deduplicated lists). -/

mutual

def validValue : AttrDesc → AttrValue → Bool
  | .string, .str _ => true
  | .number, .num _ => true
  | .binary _, .bin b => b.all (· < 256)
  | .boolean, .boolean _ => true
  | .nullType, .null => true
  | .stringSet, .strSet xs => !xs.isEmpty && xs.dedup == xs
  | .numberSet, .numSet xs => !xs.isEmpty && xs.dedup == xs
  | .binarySet _, .binSet xs =>
      !xs.isEmpty && xs.dedup == xs && xs.all (·.all (· < 256))
  | .listOf d, .listV xs => validElems d xs
  | .mapOf fds, .mapV kvs => validFields fds kvs
  | _, _ => false
termination_by d v => (sizeOf d, sizeOf v)

def validElems : AttrDesc → List AttrValue → Bool
  | _, [] => true
  | d, x :: xs => validValue d x && validElems d xs
termination_by d xs => (sizeOf d, sizeOf xs)

def validFields : List (String × AttrDesc) → List (String × AttrValue) → Bool
  | [], [] => true
  | (k, d) :: fds, (k2, v) :: kvs => k == k2 && validValue d v && validFields fds kvs
  | _, _ => false
termination_by fds kvs => (sizeOf fds, sizeOf kvs)

end

theorem decodeBin_encodeBin (e : Bool) (b : List Nat) (h : ∀ x ∈ b, x < 256) :
    decodeBin e (encodeBin e b) = b := by
  cases e <;> simp [encodeBin, decodeBin, b64decode_b64encode b h]

theorem map_decToInt_intToDec (xs : List Int) : (xs.map intToDec).map decToInt = xs := by
  induction xs with
  | nil => rfl
  | cons x xs ih => simp [decToInt_intToDec, ih]

theorem map_comp_decToInt_intToDec (xs : List Int) :
    List.map (decToInt ∘ intToDec) xs = xs := by
  rw [← List.map_map]
  exact map_decToInt_intToDec xs

theorem map_decodeBin_encodeBin (e : Bool) (xs : List (List Nat))
    (h : ∀ b ∈ xs, ∀ x ∈ b, x < 256) :
    (xs.map (encodeBin e)).map (decodeBin e) = xs := by
  induction xs with
  | nil => rfl
  | cons b xs ih =>
      have hb := h b (by simp)
      have hrest : ∀ b' ∈ xs, ∀ x ∈ b', x < 256 := fun b' hb' => h b' (by simp [hb'])
      simp [decodeBin_encodeBin e b hb, ih hrest]

/-- Joint round-trip statement over values, map fields and list elements:
every valid value serializes successfully and deserializes back to
itself. -/
theorem roundtrip_mutual :
    (∀ d v, validValue d v = true →
      ∃ w, serializeValue d v = some w ∧ deserializeValue d w = some v) ∧
    (∀ fds kvs, validFields fds kvs = true →
      ∃ ws, serializeFields fds kvs = some ws ∧ deserializeFields fds ws = some kvs) ∧
    (∀ d xs, validElems d xs = true →
      ∃ ws, serializeElems d xs = some ws ∧ deserializeElems d ws = some xs) := by
  refine validValue.mutual_induct _ _ _
    ?c1 ?c2 ?c3 ?c4 ?c5 ?c6 ?c7 ?c8 ?c9 ?c10 ?c11 ?c12 ?c13 ?c14 ?c15 ?c16
  case c1 =>
    intro s _
    exact ⟨.S s, by simp [serializeValue], by simp [deserializeValue]⟩
  case c2 =>
    intro n _
    exact ⟨.N (intToDec n), by simp [serializeValue],
      by simp [deserializeValue, decToInt_intToDec]⟩
  case c3 =>
    intro leg b hval
    simp only [validValue] at hval
    have hb : ∀ x ∈ b, x < 256 := by simpa using hval
    exact ⟨.B leg (encodeBin leg b), by simp [serializeValue, hval],
      by simp [deserializeValue, decodeBin_encodeBin leg b hb]⟩
  case c4 =>
    intro b _
    exact ⟨.BOOL b, by simp [serializeValue], by simp [deserializeValue]⟩
  case c5 =>
    intro _
    exact ⟨.NULL, by simp [serializeValue], by simp [deserializeValue]⟩
  case c6 =>
    intro xs hval
    simp only [validValue, Bool.and_eq_true, Bool.not_eq_true', beq_iff_eq] at hval
    obtain ⟨hne, hdedup⟩ := hval
    exact ⟨.SS xs, by simp [serializeValue, hne, hdedup], by simp [deserializeValue]⟩
  case c7 =>
    intro xs hval
    simp only [validValue, Bool.and_eq_true, Bool.not_eq_true', beq_iff_eq] at hval
    obtain ⟨hne, hdedup⟩ := hval
    exact ⟨.NS (xs.map intToDec), by simp [serializeValue, hne, hdedup],
      by simp [deserializeValue, map_decToInt_intToDec, map_comp_decToInt_intToDec]⟩
  case c8 =>
    intro leg xs hval
    simp only [validValue, Bool.and_eq_true, Bool.not_eq_true', beq_iff_eq] at hval
    obtain ⟨⟨hne, hdedup⟩, hbytes⟩ := hval
    have hb : ∀ b ∈ xs, ∀ x ∈ b, x < 256 := by simpa using hbytes
    exact ⟨.BS leg (xs.map (encodeBin leg)), by simp [serializeValue, hne, hdedup, hbytes],
      by simp [deserializeValue, map_decodeBin_encodeBin leg xs hb]⟩
  case c9 =>
    intro d xs ih hval
    simp only [validValue] at hval
    obtain ⟨ws, hs, hd⟩ := ih hval
    exact ⟨.L ws, by simp [serializeValue, hs], by simp [deserializeValue, hd]⟩
  case c10 =>
    intro fds kvs ih hval
    simp only [validValue] at hval
    obtain ⟨ws, hs, hd⟩ := ih hval
    exact ⟨.M ws, by simp [serializeValue, hs], by simp [deserializeValue, hd]⟩
  case c11 =>
    intro x x1 h1 h2 h3 h4 h5 h6 h7 h8 h9 h10 hval
    exfalso
    rw [validValue.eq_def] at hval
    split at hval
    · exact h1 _ rfl rfl
    · exact h2 _ rfl rfl
    · exact h3 _ _ rfl rfl
    · exact h4 _ rfl rfl
    · exact h5 rfl rfl
    · exact h6 _ rfl rfl
    · exact h7 _ rfl rfl
    · exact h8 _ _ rfl rfl
    · exact h9 _ _ rfl rfl
    · exact h10 _ _ rfl rfl
    · simp at hval
  case c12 =>
    intro _
    exact ⟨[], by simp [serializeFields], by simp [deserializeFields]⟩
  case c13 =>
    intro k d fds k2 v kvs ih1 ih2 hval
    simp only [validFields, Bool.and_eq_true, beq_iff_eq] at hval
    obtain ⟨⟨hk, hv⟩, hrest⟩ := hval
    subst hk
    obtain ⟨w, hs1, hd1⟩ := ih1 hv
    obtain ⟨ws, hs2, hd2⟩ := ih2 hrest
    exact ⟨(k, w) :: ws, by simp [serializeFields, hs1, hs2],
      by simp [deserializeFields, hd1, hd2]⟩
  case c14 =>
    intro x x1 h1 h2 hval
    exfalso
    rw [validFields.eq_def] at hval
    split at hval
    · exact h1 rfl rfl
    · exact h2 _ _ _ _ _ _ rfl rfl
    · simp at hval
  case c15 =>
    intro d _
    exact ⟨[], by simp [serializeElems], by simp [deserializeElems]⟩
  case c16 =>
    intro d x xs ih1 ih2 hval
    simp only [validElems, Bool.and_eq_true] at hval
    obtain ⟨hv, hrest⟩ := hval
    obtain ⟨w, hs1, hd1⟩ := ih1 hv
    obtain ⟨ws, hs2, hd2⟩ := ih2 hrest
    exact ⟨w :: ws, by simp [serializeElems, hs1, hs2],
      by simp [deserializeElems, hd1, hd2]⟩

/-! ## Items and update actions

An item is an association list from attribute names to wire values.
Modelled from the spec (§4.3): update actions (`SET`/`ADD`/`REMOVE`/
`DELETE`) compile to wire clauses; "Removing a set to empty compiles
to a `REMOVE` clause (since empty sets cannot be represented as a
value), not a `SET` to an empty collection", while "a literal `add`
action always compiles to the wire `ADD` clause". -/

/-- A stored item: attribute name to wire value, no duplicate names. -/
abbrev Item := List (String × WireValue)

/-- A compiled update clause of the wire update expression. -/
inductive UpdateClause where
  | setClause (path : String) (w : WireValue)
  | removeClause (path : String)
  | addClause (path : String) (w : WireValue)
  | deleteClause (path : String) (w : WireValue)

/-- An application-level update action bound to an attribute path. -/
inductive UpdateAction where
  | setAct (path : String) (d : AttrDesc) (v : AttrValue)
  | removeAct (path : String)
  | addAct (path : String) (d : AttrDesc) (v : AttrValue)
  | deleteAct (path : String) (d : AttrDesc) (v : AttrValue)

/-- Compile one update action.  A `set` whose operand serializes to the
wire `NULL` (an empty set) becomes a `REMOVE` clause. -/
def compileAction : UpdateAction → Option UpdateClause
  | .setAct p d v =>
      match serializeValue d v with
      | some .NULL => some (.removeClause p)
      | some w => some (.setClause p w)
      | none => none
  | .removeAct p => some (.removeClause p)
  | .addAct p d v => (serializeValue d v).map (.addClause p)
  | .deleteAct p d v => (serializeValue d v).map (.deleteClause p)

/-- Drop an attribute from an item. -/
def removeAttr (it : Item) (p : String) : Item :=
  it.filter (fun kv => kv.1 ≠ p)

/-- Set an attribute of an item. -/
def upsertAttr (it : Item) (p : String) (w : WireValue) : Item :=
  removeAttr it p ++ [(p, w)]

/-- Store-side application of one compiled clause to an item: `SET`
overwrites, `REMOVE` drops, `ADD` increments a number (treating a
missing attribute as zero), `DELETE` removes elements from a set,
dropping the attribute when the set would become empty. -/
def applyClause (it : Item) : UpdateClause → Item
  | .setClause p w => upsertAttr it p w
  | .removeClause p => removeAttr it p
  | .addClause p w =>
      match it.lookup p, w with
      | some (.N old), .N d => upsertAttr it p (.N (intToDec (decToInt old + decToInt d)))
      | none, .N d => upsertAttr it p (.N d)
      | _, _ => it
  | .deleteClause p w =>
      match it.lookup p, w with
      | some (.SS xs), .SS ys =>
          let r := xs.filter (· ∉ ys)
          if r.isEmpty then removeAttr it p else upsertAttr it p (.SS r)
      | some (.NS xs), .NS ys =>
          let r := xs.filter (· ∉ ys)
          if r.isEmpty then removeAttr it p else upsertAttr it p (.NS r)
      | some (.BS e xs), .BS _ ys =>
          let r := xs.filter (· ∉ ys)
          if r.isEmpty then removeAttr it p else upsertAttr it p (.BS e r)
      | _, _ => it

/-- Compile and apply a list of update actions in order. -/
def applyActions (it : Item) : List UpdateAction → Option Item
  | [] => some it
  | a :: rest => do
      let c ← compileAction a
      applyActions (applyClause it c) rest

theorem lookup_removeAttr (it : Item) (p : String) :
    (removeAttr it p).lookup p = none := by
  induction it with
  | nil => rfl
  | cons kv rest ih =>
      obtain ⟨k, w⟩ := kv
      by_cases h : k = p
      · simpa [removeAttr, List.filter_cons, h] using ih
      · have hne : (p == k) = false := beq_eq_false_iff_ne.mpr (Ne.symm h)
        simpa [removeAttr, List.filter_cons, h, List.lookup, hne] using ih

/-! ## Record schemas, version-attribute uniqueness and index merging

Modelled from the spec (§4.2): the schema registry is absent from the
source tree.  Registration collects the attribute declarations of the
whole inheritance chain and "fails ... if more than one version
attribute ... is found anywhere in the subtype chain being registered";
the repository's integration test pins the message
`The model has more than one Version attribute: version, version_invalid`
(raised as a `ValueError`-compatible schema error at class-definition
time).  Index merging unions the index declarations of a schema and all
its registered subtypes and fails with a `TableError` whose message is
`Cannot have two attributes with the same name` when two subtypes
declare the same attribute name with different wire types. -/

/-- One attribute declaration of a model class (inherited declarations
included, in declaration order). -/
structure DeclaredAttr where
  name : String
  isVersion : Bool
deriving DecidableEq

/-- Schema-definition-time failure (surfaced as a `ValueError`). -/
structure SchemaError where
  message : String
deriving DecidableEq

/-- Names of the version attributes declared along the chain. -/
def versionNames (attrs : List DeclaredAttr) : List String :=
  (attrs.filter (·.isVersion)).map (·.name)

/-- Modelled from the spec: registering a schema checks that at most one
version attribute exists anywhere in the subtype chain, at
schema-definition time. -/
def registerModel (attrs : List DeclaredAttr) : Except SchemaError Unit :=
  let vs := versionNames attrs
  if vs.length ≤ 1 then .ok ()
  else .error ⟨"The model has more than one Version attribute: " ++ String.intercalate ", " vs⟩

/-- A key attribute of a secondary index: name plus wire type tag. -/
structure IndexAttrDef where
  name : String
  attrType : String
deriving DecidableEq

/-- A secondary-index declaration. -/
structure IndexDef where
  indexName : String
  keyAttrs : List IndexAttrDef
deriving DecidableEq

/-- One schema node of a discriminated schema tree (the base schema or a
registered subtype): its discriminator tag and declared indexes. -/
structure SchemaNode where
  tag : String
  indexes : List IndexDef
deriving DecidableEq

/-- Table-creation-time failure. -/
structure TableError where
  message : String
deriving DecidableEq

/-- All index declarations over the base schema and registered subtypes. -/
def allIndexes (nodes : List SchemaNode) : List IndexDef :=
  (nodes.flatMap (·.indexes)).dedup

/-- All index key attribute declarations across the tree. -/
def allIndexAttrs (nodes : List SchemaNode) : List IndexAttrDef :=
  ((allIndexes nodes).flatMap (·.keyAttrs)).dedup

/-- Two declarations conflict when they share a name but not a type. -/
def attrConflict (attrs : List IndexAttrDef) : Bool :=
  attrs.any fun a => attrs.any fun b => a.name == b.name && a.attrType != b.attrType

/-- Modelled from the spec: `merged_index_definitions` computes the
union of index declarations across a schema and all its registered
subtypes and fails with a `TableError` if two subtypes declare the same
attribute name with incompatible wire types. -/
def mergedIndexDefinitions (nodes : List SchemaNode) :
    Except TableError (List IndexDef × List IndexAttrDef) :=
  if attrConflict (allIndexAttrs nodes) then
    .error ⟨"Cannot have two attributes with the same name"⟩
  else
    .ok (allIndexes nodes, allIndexAttrs nodes)

/-- Modelled from the spec: `create_table` runs the merge check once at
table-creation time and sends the merged definitions to the external
table-lifecycle collaborator. -/
def createTable (nodes : List SchemaNode) :
    Except TableError (List IndexDef × List IndexAttrDef) :=
  mergedIndexDefinitions nodes

/-! ## Transaction orchestrator

Modelled from the spec (§4.5, §7): the transaction module is absent
from the source tree.  A write-transaction enqueues per-item operations,
compiles an implicit optimistic-concurrency condition and
version-increment action for records whose schema has a version
attribute (unless explicitly disabled), issues one atomic request, and
on success advances every involved local record's version attribute in
place; on failure it raises a `TransactWriteError` carrying the
transport cause and, for cancellations, a position-aligned nullable
per-item `CancellationReason` list, leaving local state untouched.
Records and stored items carry only the version counter and an opaque
string payload; the marshalled attribute content is not relevant to the
transaction-level claims. -/

/-- A live record object: table key, whether its schema declares a
version attribute, the version attribute's last-known value, and the
remaining attribute values (opaque here). -/
structure Record where
  key : Nat
  hasVersion : Bool
  version : Option Nat
  payload : List (String × String)
deriving DecidableEq

/-- A server-side stored item. -/
structure StoredItem where
  version : Option Nat
  payload : List (String × String)
deriving DecidableEq

/-- Server table state: key to stored item. -/
def Store := Nat → Option StoredItem

/-- A user-supplied condition on the target item (the forms exercised
by the integration tests: `exists` / `does_not_exist`). -/
inductive Cond where
  | exist
  | notExists
deriving DecidableEq

def evalCond (c : Cond) (it : Option StoredItem) : Bool :=
  match c with
  | .exist => it.isSome
  | .notExists => it.isNone

def userCondOK (c : Option Cond) (it : Option StoredItem) : Bool :=
  match c with
  | none => true
  | some c0 => evalCond c0 it

/-- The implicit version condition: "attribute does not exist" for a
brand-new record, "version equals last-known value" for an existing
one. -/
def versionCondOK (r : Record) (it : Option StoredItem) : Bool :=
  match r.version with
  | none =>
      match it with
      | none => true
      | some s0 => s0.version.isNone
  | some n =>
      match it with
      | none => false
      | some s0 => s0.version == some n

/-- One enqueued item operation of a write-transaction.  `update`
carries its `SET` actions as attribute/value pairs; `update` and
`delete` allow disabling the implicit version condition. -/
inductive WriteOp where
  | save (r : Record) (cond : Option Cond)
  | update (r : Record) (sets : List (String × String)) (cond : Option Cond)
      (addVersionCondition : Bool)
  | delete (r : Record) (cond : Option Cond) (addVersionCondition : Bool)
  | conditionCheck (key : Nat) (cond : Cond)
deriving DecidableEq

def opKey : WriteOp → Nat
  | .save r _ => r.key
  | .update r _ _ _ => r.key
  | .delete r _ _ => r.key
  | .conditionCheck k _ => k

def opRecord? : WriteOp → Option Record
  | .save r _ => some r
  | .update r _ _ _ => some r
  | .delete r _ _ => some r
  | .conditionCheck _ _ => none

/-- All conditions of one operation (user condition plus the implicit
version condition, unless disabled) against the current store state. -/
def opCondOK (s : Store) : WriteOp → Bool
  | .save r c => userCondOK c (s r.key) && (!r.hasVersion || versionCondOK r (s r.key))
  | .update r _ c avc =>
      userCondOK c (s r.key) && (!(r.hasVersion && avc) || versionCondOK r (s r.key))
  | .delete r c avc =>
      userCondOK c (s r.key) && (!(r.hasVersion && avc) || versionCondOK r (s r.key))
  | .conditionCheck k c => evalCond c (s k)

/-- Apply `SET` update actions to a payload (last writer wins per key). -/
def applySets (p : List (String × String)) (sets : List (String × String)) :
    List (String × String) :=
  sets.foldl (fun acc kv => acc.filter (fun x => x.1 ≠ kv.1) ++ [kv]) p

/-- The new stored item at an operation's key, as a function of the old
one.  A `save` puts the serialized record (version: local last-known
value plus one, or 1 for a new record); an `update` applies its `SET`
actions and the implicit `ADD version 1` action (incrementing the
stored counter, 1 when absent); a `delete` removes the item. -/
def opApplyAtKey (old : Option StoredItem) : WriteOp → Option StoredItem
  | .save r _ => some ⟨if r.hasVersion then some (r.version.getD 0 + 1) else none, r.payload⟩
  | .update r sets _ _ =>
      let oldV := (old.bind (·.version))
      some ⟨if r.hasVersion then some (oldV.getD 0 + 1) else oldV,
            applySets ((old.map (·.payload)).getD []) sets⟩
  | .delete _ _ _ => none
  | .conditionCheck _ _ => old

def applyOp (s : Store) (op : WriteOp) : Store :=
  fun k => if k = opKey op then opApplyAtKey (s (opKey op)) op else s k

/-- A per-item cancellation reason, position-aligned with the enqueued
operations; the code/message pinned by the integration tests. -/
structure CancellationReason where
  code : String
  message : String
deriving DecidableEq

def ccfReason : CancellationReason :=
  ⟨"ConditionalCheckFailed", "The conditional request failed"⟩

/-- The transport-level failure carried by a `TransactWriteError`. -/
inductive TransactError where
  | transactionCanceled (reasons : List (Option CancellationReason))
  | validationException
  | idempotentParameterMismatch
deriving DecidableEq

/-- The machine-readable cause code of the transport failure, as pinned
by the integration tests' `cause_response_code` assertions. -/
def TransactError.causeResponseCode : TransactError → String
  | .transactionCanceled _ => "TransactionCanceledException"
  | .validationException => "ValidationException"
  | .idempotentParameterMismatch => "IdempotentParameterMismatchException"

/-- One nullable reason per enqueued operation, in enqueue order: `none`
for an item that was not a cause of the cancellation. -/
def cancellationReasonsFor (s : Store) (ops : List WriteOp) :
    List (Option CancellationReason) :=
  ops.map fun op => if opCondOK s op then none else some ccfReason

/-- The store's atomic multi-operation write: duplicate (table, key)
operations fail with a validation error (detected server-side); any
failed condition cancels the whole transaction, reporting the aligned
reason list; otherwise all operations apply atomically. -/
def serverTransactWrite (s : Store) (ops : List WriteOp) : Except TransactError Store :=
  if (ops.map opKey).Nodup then
    if (cancellationReasonsFor s ops).all (·.isNone) then .ok (ops.foldl applyOp s)
    else .error (.transactionCanceled (cancellationReasonsFor s ops))
  else .error .validationException

/-- Locally advance a record's version attribute by one (the same
increment the server was asked to apply). -/
def bumpVersion (r : Record) : Record :=
  if r.hasVersion then { r with version := some (r.version.getD 0 + 1) } else r

/-- Whether the orchestrator advances the operation's local record on
success (saves and updates; deletes discard the record). -/
def opBumpsLocal : WriteOp → Bool
  | .save _ _ => true
  | .update _ _ _ _ => true
  | _ => false

/-- The per-operation local record objects after the commit attempt:
on success, saves/updates have their version advanced in place; on
failure every record keeps its enqueued state. -/
def localRecordsAfter (success : Bool) (ops : List WriteOp) : List (Option Record) :=
  ops.map fun op => (opRecord? op).map fun r =>
    if success && opBumpsLocal op then bumpVersion r else r

/-- Result of a write-transaction commit: the server store afterwards,
the surfaced result, and the local record objects (position-aligned
with the enqueued operations). -/
structure CommitOutcome where
  store : Store
  result : Except TransactError Unit
  records : List (Option Record)

/-- The orchestrator's commit: issue the atomic request; on success
advance the local version attributes, on failure leave all local state
untouched. -/
def commitWrite (s : Store) (ops : List WriteOp) : CommitOutcome :=
  match serverTransactWrite s ops with
  | .ok s2 => ⟨s2, .ok (), localRecordsAfter true ops⟩
  | .error e => ⟨s, .error e, localRecordsAfter false ops⟩

/-- Server state including the client-request-token table used for
write-transaction idempotency. -/
structure ServerState where
  store : Store
  tokens : List (String × List WriteOp)

/-- Commit with a client request token: replaying the identical request
under a known token succeeds without reapplying; a different request
under the same token fails with the idempotent-parameter-mismatch
cause, surfaced as-is without retry and without applying anything. -/
def commitWriteWithToken (st : ServerState) (token : String) (ops : List WriteOp) :
    ServerState × Except TransactError Unit × List (Option Record) :=
  match st.tokens.lookup token with
  | some prevOps =>
      if prevOps = ops then (st, .ok (), localRecordsAfter true ops)
      else (st, .error .idempotentParameterMismatch, localRecordsAfter false ops)
  | none =>
      match serverTransactWrite st.store ops with
      | .ok s2 => (⟨s2, (token, ops) :: st.tokens⟩, .ok (), localRecordsAfter true ops)
      | .error e => (st, .error e, localRecordsAfter false ops)

/-! ## Read-transaction futures

Modelled from the spec (§4.5): while a read-transaction is open, `get`
enqueues a request and returns an unresolved future; reading it fails
with `InvalidStateError`.  On exit one atomic multi-get resolves every
future independently: a present item demarshals to a record, an absent
one raises `DoesNotExist` only when that future is read. -/

/-- A deferred read result: the requesting schema's version flag, the
key, and `none` while unresolved. -/
structure GetFuture where
  hasVersion : Bool
  key : Nat
  resolved : Option (Option StoredItem)

inductive GetError where
  | invalidState
  | doesNotExist
deriving DecidableEq

/-- Enqueue the get-requests of an open read-transaction: all futures
unresolved. -/
def transactGetOpen (reqs : List (Bool × Nat)) : List GetFuture :=
  reqs.map fun rq => ⟨rq.1, rq.2, none⟩

/-- Commit: one atomic multi-get resolves each future from the store. -/
def resolveFutures (s : Store) (fs : List GetFuture) : List GetFuture :=
  fs.map fun f => ⟨f.hasVersion, f.key, some (s f.key)⟩

/-- Read a future: before resolution this is an invalid-state failure;
after resolution it demarshals the item or raises the not-found
failure for this item alone. -/
def GetFuture.get : GetFuture → Except GetError Record
  | ⟨_, _, none⟩ => .error .invalidState
  | ⟨_, _, some none⟩ => .error .doesNotExist
  | ⟨hv, k, some (some it)⟩ => .ok ⟨k, hv, it.version, it.payload⟩

/-! ## Store-application lemmas -/

theorem applyOp_ne (s : Store) (op : WriteOp) (k : Nat) (h : k ≠ opKey op) :
    applyOp s op k = s k := by
  simp [applyOp, h]

theorem foldl_applyOp_ne (ops : List WriteOp) (s : Store) (k : Nat)
    (h : ∀ op ∈ ops, k ≠ opKey op) : (ops.foldl applyOp s) k = s k := by
  induction ops generalizing s with
  | nil => rfl
  | cons op rest ih =>
      rw [List.foldl_cons, ih _ (fun o ho => h o (by simp [ho]))]
      exact applyOp_ne s op k (h op (by simp))

/-- With pairwise-distinct operation keys, the store after the atomic
apply holds, at each operation's key, exactly that operation's effect
computed from the pre-transaction item. -/
theorem foldl_applyOp_at (ops : List WriteOp) (i : Nat) (op : WriteOp)
    (hop : ops[i]? = some op) (s : Store) (hnodup : (ops.map opKey).Nodup) :
    (ops.foldl applyOp s) (opKey op) = opApplyAtKey (s (opKey op)) op := by
  induction ops generalizing i s with
  | nil => simp at hop
  | cons op0 rest ih =>
      rw [List.map_cons, List.nodup_cons] at hnodup
      obtain ⟨hnotin, hnd⟩ := hnodup
      cases i with
      | zero =>
          simp only [List.getElem?_cons_zero, Option.some.injEq] at hop
          subst hop
          rw [List.foldl_cons, foldl_applyOp_ne rest _ (opKey op0)]
          · simp [applyOp]
          · intro o ho heq
            exact hnotin (heq ▸ List.mem_map_of_mem opKey ho)
      | succ j =>
          simp only [List.getElem?_cons_succ] at hop
          have hmem : op ∈ rest := List.getElem?_mem hop
          have hk : opKey op ≠ opKey op0 := by
            intro he
            exact hnotin (he ▸ List.mem_map_of_mem opKey hmem)
          rw [List.foldl_cons, ih j hop (applyOp s op0) hnd,
              applyOp_ne s op0 (opKey op) hk]

theorem isNone_reason (b : Bool) :
    (if b then none else some ccfReason : Option CancellationReason).isNone = b := by
  cases b <;> rfl

theorem reasons_all_none_iff (s : Store) (ops : List WriteOp) :
    (cancellationReasonsFor s ops).all (·.isNone) = true ↔
      ∀ op ∈ ops, opCondOK s op = true := by
  unfold cancellationReasonsFor
  rw [List.all_eq_true]
  constructor
  · intro h op hop
    have h2 := h _ (List.mem_map_of_mem _ hop)
    rwa [isNone_reason] at h2
  · intro h x hx
    obtain ⟨op, hop, rfl⟩ := List.mem_map.mp hx
    rw [isNone_reason]
    exact h op hop

/-- Success of the atomic request means: distinct keys, every item's
conditions (implicit version condition included) held against the
pre-transaction store, and the final store is the atomic application. -/
theorem serverTransactWrite_ok (s : Store) (ops : List WriteOp) (s2 : Store)
    (h : serverTransactWrite s ops = .ok s2) :
    (ops.map opKey).Nodup ∧ (∀ op ∈ ops, opCondOK s op = true) ∧
      s2 = ops.foldl applyOp s := by
  unfold serverTransactWrite at h
  by_cases hnd : (ops.map opKey).Nodup
  · rw [if_pos hnd] at h
    by_cases hall : (cancellationReasonsFor s ops).all (·.isNone) = true
    · rw [if_pos hall] at h
      exact ⟨hnd, (reasons_all_none_iff s ops).mp hall, by cases h; rfl⟩
    · rw [if_neg hall] at h
      cases h
  · rw [if_neg hnd] at h
    cases h

theorem commitWrite_ok (s : Store) (ops : List WriteOp)
    (h : (commitWrite s ops).result = .ok ()) :
    (ops.map opKey).Nodup ∧ (∀ op ∈ ops, opCondOK s op = true) ∧
    (commitWrite s ops).store = ops.foldl applyOp s ∧
    (commitWrite s ops).records = localRecordsAfter true ops := by
  rcases hsrv : serverTransactWrite s ops with e | s2
  · exfalso
    unfold commitWrite at h
    rw [hsrv] at h
    simp at h
  · obtain ⟨hnd, hconds, hs2⟩ := serverTransactWrite_ok s ops s2 hsrv
    subst hs2
    unfold commitWrite
    rw [hsrv]
    exact ⟨hnd, hconds, rfl, rfl⟩

/-- Failure of the atomic request leaves the store and every local
record untouched. -/
theorem commitWrite_error (s : Store) (ops : List WriteOp) (e : TransactError)
    (h : (commitWrite s ops).result = .error e) :
    (commitWrite s ops).store = s ∧
    (commitWrite s ops).records = ops.map opRecord? := by
  rcases hsrv : serverTransactWrite s ops with e2 | s2
  · unfold commitWrite
    rw [hsrv]
    exact ⟨rfl, by simp [localRecordsAfter]⟩
  · exfalso
    unfold commitWrite at h
    rw [hsrv] at h
    simp at h

theorem localRecordsAfter_false (ops : List WriteOp) :
    localRecordsAfter false ops = ops.map opRecord? := by
  simp [localRecordsAfter]

/-- When the implicit version condition held, the stored counter the
server increments equals the record's last-known value. -/
theorem versionCond_oldV (r : Record) (it : Option StoredItem)
    (h : versionCondOK r it = true) :
    ((it.bind (·.version)).getD 0) = r.version.getD 0 := by
  rcases hr : r.version with _ | n <;> rcases hit : it with _ | s0 <;>
    simp [versionCondOK, hr, hit] at h ⊢
  · simp [h]
  · simp [h]

instance {e a : Type} [DecidableEq e] [DecidableEq a] : DecidableEq (Except e a) := fun x y =>
  match x, y with
  | .ok v, .ok w =>
      if h : v = w then .isTrue (by rw [h]) else .isFalse (by intro hh; cases hh; exact h rfl)
  | .error v, .error w =>
      if h : v = w then .isTrue (by rw [h]) else .isFalse (by intro hh; cases hh; exact h rfl)
  | .ok _, .error _ => .isFalse (by intro hh; cases hh)
  | .error _, .ok _ => .isFalse (by intro hh; cases hh)

/-! ## Claim theorems -/

/-- C1: for every record with a version attribute, a first successful
save sets the version to 1 and every subsequent successful save or
update inside a write-transaction increments it by exactly 1
(`r.version.getD 0 + 1` is `1` for a new record and `n + 1` for
last-known value `n`), both on the stored item and on the local record
object, which the orchestrator advances in place on success. -/
theorem version_advance_on_successful_transaction (s : Store) (ops : List WriteOp)
    (hok : (commitWrite s ops).result = .ok ()) :
    (∀ (i : Nat) (r : Record) (c : Option Cond),
        ops[i]? = some (WriteOp.save r c) → r.hasVersion = true →
        (commitWrite s ops).records[i]? =
          some (some { r with version := some (r.version.getD 0 + 1) }) ∧
        (commitWrite s ops).store r.key =
          some ⟨some (r.version.getD 0 + 1), r.payload⟩) ∧
    (∀ (i : Nat) (r : Record) (sets : List (String × String)) (c : Option Cond),
        ops[i]? = some (WriteOp.update r sets c true) → r.hasVersion = true →
        (commitWrite s ops).records[i]? =
          some (some { r with version := some (r.version.getD 0 + 1) }) ∧
        ∃ oldPayload, (commitWrite s ops).store r.key =
          some ⟨some (r.version.getD 0 + 1), applySets oldPayload sets⟩) := by
  obtain ⟨hnd, hconds, hstore, hrecs⟩ := commitWrite_ok s ops hok
  constructor
  · intro i r c hop hv
    constructor
    · rw [hrecs]
      simp only [localRecordsAfter, List.getElem?_map, hop]
      simp [opRecord?, opBumpsLocal, bumpVersion, hv]
    · rw [hstore]
      have h := foldl_applyOp_at ops i _ hop s hnd
      rw [show opKey (.save r c) = r.key from rfl] at h
      rw [h]
      simp [opApplyAtKey, hv]
  · intro i r sets c hop hv
    have hmem : WriteOp.update r sets c true ∈ ops := List.getElem?_mem hop
    have hcond := hconds _ hmem
    simp only [opCondOK, hv, Bool.and_eq_true, Bool.or_eq_true] at hcond
    have hvc : versionCondOK r (s r.key) = true := by
      rcases hcond.2 with h2 | h2
      · simp at h2
      · exact h2
    constructor
    · rw [hrecs]
      simp only [localRecordsAfter, List.getElem?_map, hop]
      simp [opRecord?, opBumpsLocal, bumpVersion, hv]
    · rw [hstore]
      have h := foldl_applyOp_at ops i _ hop s hnd
      rw [show opKey (.update r sets c true) = r.key from rfl] at h
      rw [h]
      refine ⟨((s r.key).map (·.payload)).getD [], ?_⟩
      simp [opApplyAtKey, hv, versionCond_oldV r (s r.key) hvc]

theorem version_advance_witness :
    (commitWrite (fun _ => none) [.save ⟨4, true, none, []⟩ none]).result = .ok () ∧
    (commitWrite (fun _ => none) [.save ⟨4, true, none, []⟩ none]).records[0]? =
      some (some ⟨4, true, some 1, []⟩) := by
  have h := (version_advance_on_successful_transaction (fun _ => none)
    [.save ⟨4, true, none, []⟩ none] (by decide)).1 0 ⟨4, true, none, []⟩ none rfl rfl
  exact ⟨by decide, h.1⟩

/-- C2: a failed write-transaction commit (whatever the cause) leaves
the server store and every enqueued local record — its version
attribute in particular — exactly as they were before the attempt. -/
theorem failed_transaction_leaves_local_state (s : Store) (ops : List WriteOp)
    (e : TransactError) (h : (commitWrite s ops).result = .error e) :
    (commitWrite s ops).store = s ∧
    (commitWrite s ops).records = ops.map opRecord? ∧
    (∀ (i : Nat) (op : WriteOp) (r : Record), ops[i]? = some op → opRecord? op = some r →
        (commitWrite s ops).records[i]? = some (some r)) := by
  obtain ⟨hstore, hrecs⟩ := commitWrite_error s ops e h
  refine ⟨hstore, hrecs, ?_⟩
  intro i op r hop hrec
  rw [hrecs]
  simp only [List.getElem?_map, hop]
  simp [hrec]

theorem failed_transaction_witness :
    (commitWrite (fun k => if k = 21 then some ⟨some 1, []⟩ else none)
        [.save ⟨21, true, none, []⟩ none]).result =
      .error (.transactionCanceled [some ccfReason]) ∧
    (commitWrite (fun k => if k = 21 then some ⟨some 1, []⟩ else none)
        [.save ⟨21, true, none, []⟩ none]).records =
      [some ⟨21, true, none, []⟩] := by
  have h := failed_transaction_leaves_local_state
    (fun k => if k = 21 then some ⟨some 1, []⟩ else none)
    [.save ⟨21, true, none, []⟩ none]
    (.transactionCanceled [some ccfReason]) (by decide)
  exact ⟨by decide, h.2.1⟩

/-- C3: a cancelled write-transaction carries one nullable cancellation
reason per enqueued operation, position-aligned with enqueue order:
`none` exactly at the positions whose conditions all held, and the
pinned `ConditionalCheckFailed` reason at the positions at fault. -/
theorem cancellation_reasons_position_aligned (s : Store) (ops : List WriteOp)
    (reasons : List (Option CancellationReason))
    (h : (commitWrite s ops).result = .error (.transactionCanceled reasons)) :
    reasons.length = ops.length ∧
    (∀ (i : Nat) (op : WriteOp), ops[i]? = some op →
        reasons[i]? = some (if opCondOK s op then none else some ccfReason)) ∧
    (∀ (i : Nat) (op : WriteOp), ops[i]? = some op → opCondOK s op = true →
        reasons[i]? = some none) := by
  have hre : reasons = cancellationReasonsFor s ops := by
    rcases hsrv : serverTransactWrite s ops with e2 | s2
    · unfold commitWrite at h
      rw [hsrv] at h
      simp only [Except.error.injEq] at h
      unfold serverTransactWrite at hsrv
      by_cases hnd : (ops.map opKey).Nodup
      · rw [if_pos hnd] at hsrv
        by_cases hall : (cancellationReasonsFor s ops).all (·.isNone) = true
        · rw [if_pos hall] at hsrv
          cases hsrv
        · rw [if_neg hall] at hsrv
          cases hsrv
          cases h
          rfl
      · rw [if_neg hnd] at hsrv
        cases hsrv
        cases h
    · unfold commitWrite at h
      rw [hsrv] at h
      simp at h
  subst hre
  refine ⟨by simp [cancellationReasonsFor], ?_, ?_⟩
  · intro i op hop
    simp only [cancellationReasonsFor, List.getElem?_map, hop]
    rfl
  · intro i op hop hcond
    simp only [cancellationReasonsFor, List.getElem?_map, hop]
    simp [hcond]

theorem cancellation_reasons_witness :
    (commitWrite (fun k => if k = 2 then some ⟨none, []⟩ else none)
        [.save ⟨1, false, none, []⟩ (some .notExists),
         .save ⟨2, false, none, []⟩ (some .notExists)]).result =
      .error (.transactionCanceled [none, some ccfReason]) ∧
    ([none, some ccfReason] : List (Option CancellationReason)).length =
      [WriteOp.save ⟨1, false, none, []⟩ (some .notExists),
       WriteOp.save ⟨2, false, none, []⟩ (some .notExists)].length := by
  have h := cancellation_reasons_position_aligned
    (fun k => if k = 2 then some ⟨none, []⟩ else none)
    [.save ⟨1, false, none, []⟩ (some .notExists),
     .save ⟨2, false, none, []⟩ (some .notExists)]
    [none, some ccfReason] (by decide)
  exact ⟨by decide, h.1⟩

/-- C4: for every attribute type, deserializing a serialized valid
value yields the value back; in particular binary and binary-set values
serialized under either the legacy or the canonical encoding
deserialize back to the original bytes regardless of which encoding the
deserializing descriptor was configured with. -/
theorem attribute_serialization_roundtrip :
    (∀ d v, validValue d v = true →
        ∃ w, serializeValue d v = some w ∧ deserializeValue d w = some v) ∧
    (∀ (cfg enc : Bool) (b : List Nat) (w : WireValue), (∀ x ∈ b, x < 256) →
        serializeValue (.binary enc) (.bin b) = some w →
        deserializeValue (.binary cfg) w = some (.bin b)) ∧
    (∀ (cfg enc : Bool) (xs : List (List Nat)) (w : WireValue),
        validValue (.binarySet enc) (.binSet xs) = true →
        serializeValue (.binarySet enc) (.binSet xs) = some w →
        deserializeValue (.binarySet cfg) w = some (.binSet xs)) := by
  refine ⟨roundtrip_mutual.1, ?_, ?_⟩
  · intro cfg enc b w hb hs
    have hball : b.all (fun x => decide (x < 256)) = true := by
      simpa using hb
    simp only [serializeValue, hball, if_true, Option.some.injEq] at hs
    subst hs
    simp [deserializeValue, decodeBin_encodeBin enc b hb]
  · intro cfg enc xs w hval hs
    simp only [validValue, Bool.and_eq_true, Bool.not_eq_true', beq_iff_eq] at hval
    obtain ⟨⟨hne, hdedup⟩, hbytes⟩ := hval
    have hb : ∀ bb ∈ xs, ∀ x ∈ bb, x < 256 := by simpa using hbytes
    simp only [serializeValue, hne, hbytes, Bool.false_eq_true, if_false, if_true,
      Option.some.injEq] at hs
    subst hs
    simp [deserializeValue, hdedup, map_decodeBin_encodeBin enc xs hb]

theorem attribute_serialization_witness :
    (∃ w, serializeValue (.binary true) (.bin [0, 104, 251]) = some w ∧
        deserializeValue (.binary true) w = some (.bin [0, 104, 251])) ∧
    deserializeValue (.binary false) (.B true (encodeBin true [0, 104, 251])) =
      some (.bin [0, 104, 251]) := by
  refine ⟨attribute_serialization_roundtrip.1 (.binary true) (.bin [0, 104, 251])
    (by simp [validValue]), ?_⟩
  exact attribute_serialization_roundtrip.2.1 false true [0, 104, 251]
    (.B true (encodeBin true [0, 104, 251])) (by decide) (by simp [serializeValue])

/-- C5: merging index definitions over a discriminated schema tree
yields the union of the index declarations of the base schema and all
registered subtypes when no attribute conflicts, and fails at
table-creation time with the pinned `TableError` message whenever two
declarations share an attribute name with different wire types. -/
theorem merged_index_definitions_union_or_conflict (nodes : List SchemaNode) :
    (attrConflict (allIndexAttrs nodes) = false →
        createTable nodes = .ok (allIndexes nodes, allIndexAttrs nodes) ∧
        (∀ idx : IndexDef, idx ∈ allIndexes nodes ↔ ∃ nd ∈ nodes, idx ∈ nd.indexes)) ∧
    (∀ a b : IndexAttrDef, a ∈ allIndexAttrs nodes → b ∈ allIndexAttrs nodes →
        a.name = b.name → a.attrType ≠ b.attrType →
        createTable nodes = .error ⟨"Cannot have two attributes with the same name"⟩) := by
  constructor
  · intro hnc
    constructor
    · unfold createTable mergedIndexDefinitions
      rw [if_neg (by simp [hnc])]
    · intro idx
      unfold allIndexes
      rw [List.mem_dedup, List.mem_flatMap]
  · intro a b ha hb hn ht
    have hc : attrConflict (allIndexAttrs nodes) = true := by
      unfold attrConflict
      rw [List.any_eq_true]
      refine ⟨a, ha, ?_⟩
      rw [List.any_eq_true]
      exact ⟨b, hb, by simp [hn, ht]⟩
    unfold createTable mergedIndexDefinitions
    rw [if_pos hc]

theorem merged_index_conflict_witness :
    createTable
        [⟨"Parent", []⟩,
         ⟨"Child1", [⟨"child_index1", [⟨"index_key", "S"⟩]⟩]⟩,
         ⟨"Child2", [⟨"child_index2", [⟨"index_key", "N"⟩]⟩]⟩] =
      .error ⟨"Cannot have two attributes with the same name"⟩ :=
  (merged_index_definitions_union_or_conflict
      [⟨"Parent", []⟩,
       ⟨"Child1", [⟨"child_index1", [⟨"index_key", "S"⟩]⟩]⟩,
       ⟨"Child2", [⟨"child_index2", [⟨"index_key", "N"⟩]⟩]⟩]).2
    ⟨"index_key", "S"⟩ ⟨"index_key", "N"⟩ (by decide) (by decide) rfl (by decide)

/-- A write-transaction whose commit succeeded under a client request
token leaves that token mapped to the committed request. -/
theorem commitToken_ok_lookup (st0 : ServerState) (token : String) (ops1 : List WriteOp)
    (h1 : (commitWriteWithToken st0 token ops1).2.1 = .ok ()) :
    (commitWriteWithToken st0 token ops1).1.tokens.lookup token = some ops1 := by
  rcases hl : st0.tokens.lookup token with _ | prev
  · rcases hsrv : serverTransactWrite st0.store ops1 with e | s2
    · exfalso
      have hc : commitWriteWithToken st0 token ops1 =
          (st0, .error e, localRecordsAfter false ops1) := by
        unfold commitWriteWithToken
        rw [hl, hsrv]
      rw [hc] at h1
      simp at h1
    · have hc : commitWriteWithToken st0 token ops1 =
          (⟨s2, (token, ops1) :: st0.tokens⟩, .ok (), localRecordsAfter true ops1) := by
        unfold commitWriteWithToken
        rw [hl, hsrv]
      rw [hc]
      simp [List.lookup]
  · by_cases hp : prev = ops1
    · subst hp
      have hc : commitWriteWithToken st0 token prev =
          (st0, .ok (), localRecordsAfter true prev) := by
        unfold commitWriteWithToken
        rw [hl]
        simp
      rw [hc]
      exact hl
    · exfalso
      have hc : commitWriteWithToken st0 token ops1 =
          (st0, .error .idempotentParameterMismatch, localRecordsAfter false ops1) := by
        unfold commitWriteWithToken
        rw [hl]
        simp [hp]
      rw [hc] at h1
      simp at h1

/-- C6: committing a write-transaction and then committing a different
request under the same client token fails with the
idempotent-parameter-mismatch cause, surfaced as-is in one round trip:
the server state keeps the first commit's effects untouched and the
second transaction's writes and local record updates are not applied. -/
theorem idempotent_token_reuse_fails (st0 : ServerState) (token : String)
    (ops1 ops2 : List WriteOp)
    (h1 : (commitWriteWithToken st0 token ops1).2.1 = .ok ())
    (hne : ops1 ≠ ops2) :
    commitWriteWithToken (commitWriteWithToken st0 token ops1).1 token ops2 =
      ((commitWriteWithToken st0 token ops1).1,
        .error .idempotentParameterMismatch, ops2.map opRecord?) ∧
    TransactError.causeResponseCode .idempotentParameterMismatch =
      "IdempotentParameterMismatchException" := by
  have hlook := commitToken_ok_lookup st0 token ops1 h1
  constructor
  · set st1 := (commitWriteWithToken st0 token ops1).1 with hst1
    unfold commitWriteWithToken
    simp only [hlook]
    rw [if_neg hne, localRecordsAfter_false]
  · rfl

theorem idempotent_token_reuse_witness :
    (commitWriteWithToken
        (commitWriteWithToken ⟨fun _ => none, []⟩ "token-1"
          [.save ⟨1, false, none, []⟩ none, .save ⟨2, false, none, []⟩ none]).1
        "token-1" [.save ⟨3, false, none, []⟩ none]).2.1 =
      .error .idempotentParameterMismatch := by
  have h := (idempotent_token_reuse_fails ⟨fun _ => none, []⟩ "token-1"
    [.save ⟨1, false, none, []⟩ none, .save ⟨2, false, none, []⟩ none]
    [.save ⟨3, false, none, []⟩ none] (by decide) (by decide)).1
  exact congrArg (fun t => t.2.1) h

/-- C7: after a read-transaction commits, each deferred future resolves
independently — a present item demarshals to its record, an absent item
raises `DoesNotExist` only when that particular future is read, and a
future's value depends only on the store at its own key; reading a
future while the transaction is still open fails with
`InvalidStateError`. -/
theorem read_transaction_future_isolation (reqs : List (Bool × Nat)) (s : Store)
    (i : Nat) (hv : Bool) (k : Nat) (h : reqs[i]? = some (hv, k)) :
    ((transactGetOpen reqs)[i]?.map GetFuture.get = some (.error .invalidState)) ∧
    ((resolveFutures s (transactGetOpen reqs))[i]?.map GetFuture.get =
      some (match s k with
        | none => .error .doesNotExist
        | some it => .ok ⟨k, hv, it.version, it.payload⟩)) ∧
    (∀ s2 : Store, s2 k = s k →
        (resolveFutures s2 (transactGetOpen reqs))[i]?.map GetFuture.get =
        (resolveFutures s (transactGetOpen reqs))[i]?.map GetFuture.get) := by
  have hopen : (transactGetOpen reqs)[i]? = some ⟨hv, k, none⟩ := by
    simp only [transactGetOpen, List.getElem?_map, h]
    rfl
  have hres : ∀ st : Store,
      (resolveFutures st (transactGetOpen reqs))[i]? = some ⟨hv, k, some (st k)⟩ := by
    intro st
    simp only [resolveFutures, List.getElem?_map, hopen]
    rfl
  refine ⟨?_, ?_, ?_⟩
  · rw [hopen]
    rfl
  · rw [hres s]
    rcases hsk : s k with _ | it <;> simp [GetFuture.get]
  · intro s2 h2
    rw [hres s2, hres s, h2]

theorem read_transaction_witness :
    ((transactGetOpen [(false, 100)])[0]?.map GetFuture.get =
      some (.error .invalidState)) ∧
    ((resolveFutures (fun _ => none) (transactGetOpen [(false, 100)]))[0]?.map
        GetFuture.get = some (.error .doesNotExist)) := by
  have h := read_transaction_future_isolation [(false, 100)] (fun _ => none) 0 false 100 rfl
  exact ⟨h.1, h.2.1⟩

/-- C8: updating a set attribute to an empty collection compiles to a
`REMOVE` clause, not a `SET` of an empty collection — empty sets
serialize to the wire protocol's `NULL` — and after applying the update
the attribute is absent from the item (reads back as null/None). -/
theorem empty_set_update_compiles_to_remove (p : String) (leg : Bool) (it : Item) :
    compileAction (.setAct p .stringSet (.strSet [])) = some (.removeClause p) ∧
    compileAction (.setAct p .numberSet (.numSet [])) = some (.removeClause p) ∧
    compileAction (.setAct p (.binarySet leg) (.binSet [])) = some (.removeClause p) ∧
    serializeValue .stringSet (.strSet []) = some .NULL ∧
    serializeValue .numberSet (.numSet []) = some .NULL ∧
    serializeValue (.binarySet leg) (.binSet []) = some .NULL ∧
    applyActions it [.setAct p .numberSet (.numSet [])] = some (removeAttr it p) ∧
    (removeAttr it p).lookup p = none := by
  have hs1 : serializeValue .stringSet (.strSet ([] : List String)) = some .NULL := by
    simp [serializeValue]
  have hs2 : serializeValue .numberSet (.numSet ([] : List Int)) = some .NULL := by
    simp [serializeValue]
  have hs3 : serializeValue (.binarySet leg) (.binSet ([] : List (List Nat))) =
      some .NULL := by
    simp [serializeValue]
  refine ⟨?_, ?_, ?_, hs1, hs2, hs3, ?_, lookup_removeAttr it p⟩
  · simp [compileAction, hs1]
  · simp [compileAction, hs2]
  · simp [compileAction, hs3]
  · simp [applyActions, compileAction, hs2, applyClause]

/-- C9: registering a schema whose subtype chain declares more than one
version attribute fails at schema-definition time with the pinned
message naming every conflicting attribute. -/
theorem duplicate_version_attribute_rejected (attrs : List DeclaredAttr)
    (h : 2 ≤ (versionNames attrs).length) :
    registerModel attrs = .error
      ⟨"The model has more than one Version attribute: " ++
        String.intercalate ", " (versionNames attrs)⟩ := by
  unfold registerModel
  rw [if_neg (by omega)]

theorem duplicate_version_attribute_witness :
    registerModel
        [⟨"forum", false⟩, ⟨"thread", false⟩, ⟨"scores", false⟩,
         ⟨"version", true⟩, ⟨"version_invalid", true⟩] =
      .error ⟨"The model has more than one Version attribute: version, version_invalid"⟩ := by
  have h := duplicate_version_attribute_rejected
    [⟨"forum", false⟩, ⟨"thread", false⟩, ⟨"scores", false⟩,
     ⟨"version", true⟩, ⟨"version_invalid", true⟩] (by decide)
  exact h.trans (by decide)

/-- C10: an update that disables the implicit version condition drops
only the condition: the commit succeeds regardless of the local
record's (possibly stale) version value — last write wins — while the
stored item's version attribute is still incremented by exactly one
from its stored value, and the local record is still advanced. -/
theorem disabled_version_condition_still_increments (s : Store) (r : Record)
    (sets : List (String × String)) (old : StoredItem)
    (hv : r.hasVersion = true) (hold : s r.key = some old) :
    (commitWrite s [.update r sets none false]).result = .ok () ∧
    (commitWrite s [.update r sets none false]).store r.key =
      some ⟨some (old.version.getD 0 + 1), applySets old.payload sets⟩ ∧
    (commitWrite s [.update r sets none false]).records = [some (bumpVersion r)] := by
  have hsrv : serverTransactWrite s [.update r sets none false] =
      .ok (applyOp s (.update r sets none false)) := by
    unfold serverTransactWrite
    rw [if_pos (by simp), if_pos (by simp [cancellationReasonsFor, opCondOK, userCondOK])]
    rfl
  have hcw : commitWrite s [.update r sets none false] =
      ⟨applyOp s (.update r sets none false), .ok (),
        localRecordsAfter true [.update r sets none false]⟩ := by
    unfold commitWrite
    rw [hsrv]
  rw [hcw]
  refine ⟨rfl, ?_, ?_⟩
  · show applyOp s (.update r sets none false) r.key = _
    simp [applyOp, opKey, opApplyAtKey, hold, hv]
  · simp [localRecordsAfter, opRecord?, opBumpsLocal]

theorem disabled_version_condition_witness :
    (commitWrite (fun k => if k = 42 then some ⟨some 2, [("star", "bar")]⟩ else none)
        [.update ⟨42, true, some 1, []⟩ [("star", "last write wins")] none false]).result =
      .ok () ∧
    (commitWrite (fun k => if k = 42 then some ⟨some 2, [("star", "bar")]⟩ else none)
        [.update ⟨42, true, some 1, []⟩ [("star", "last write wins")] none false]).store 42 =
      some ⟨some 3, [("star", "last write wins")]⟩ := by
  have h := disabled_version_condition_still_increments
    (fun k => if k = 42 then some ⟨some 2, [("star", "bar")]⟩ else none)
    ⟨42, true, some 1, []⟩ [("star", "last write wins")] ⟨some 2, [("star", "bar")]⟩
    rfl (by decide)
  exact ⟨h.1, h.2.1.trans (by decide)⟩

end AioPynamoDB
